import Mathlib

/-!
Verification of the xml-parser.ts core (`src/core.ts`) against its
natural-language specification.

The embedding works over `List Char` as the model of JavaScript strings.
JavaScript `indexOf`, `slice` and `trim` become the executable functions
`jsIndexOf`, `jsSlice` / `List.drop` and `jsTrim` below; `indexOf`
returning `-1` becomes `Option.none`.  JavaScript numbers are modelled
exactly as rationals (plus the two infinities); every numeric literal the
theorems below touch is exactly representable as a double, so the model
and IEEE doubles agree on them.  The unbounded `for (;;)` loops of the
source become fuel-indexed structural recursions; fuel exhaustion is a
distinguished error value, and for the preprocessing loops we prove that
the fuel actually used (`length + 1`) can never run out.
-/

namespace XmlParserTs

/-- True when `pat` occurs at the head of `s`. -/
def patAt : List Char → List Char → Bool
  | [], _ => true
  | _ :: _, [] => false
  | p :: ps, c :: cs => p == c && patAt ps cs

/-- First index of `pat` inside `s` (searching from the head), if any. -/
def idxFrom (pat : List Char) : List Char → Option Nat
  | [] => if pat.isEmpty then some 0 else none
  | c :: cs =>
    if patAt pat (c :: cs) then some 0
    else (idxFrom pat cs).map (· + 1)

/-- Model of JavaScript `s.indexOf(pat, start)`; `none` models `-1`. -/
def jsIndexOf (s pat : List Char) (start : Nat) : Option Nat :=
  (idxFrom pat (s.drop start)).map (· + start)

/-- Model of JavaScript `s.slice(a, b)` for non-negative indices. -/
def jsSlice (s : List Char) (a b : Nat) : List Char :=
  (s.take b).drop a

/-- The whitespace set used by JavaScript `trim` and string-to-number
conversion (restricted to the ASCII part, which covers every input the
repository handles). -/
def isStrWhite (c : Char) : Bool :=
  c == ' ' || c == '\t' || c == '\n' || c == '\r' || c == '\x0b' || c == '\x0c'

/-- Model of JavaScript `s.trim()`. -/
def jsTrim (s : List Char) : List Char :=
  ((s.dropWhile isStrWhite).reverse.dropWhile isStrWhite).reverse

/-- A JavaScript number as produced by string coercion: an exact rational
or one of the infinities (`NaN` never enters the data model; the source
routes it back to the original string). -/
inductive JsNumber where
  | finite (q : ℚ)
  | inf
  | negInf
  deriving DecidableEq, Repr

/-- The dynamic values stored in the parser's property maps:
`string | number | object` where objects are insertion-ordered maps and
arrays appear through repeated tags. -/
inductive JsValue where
  | str (s : List Char)
  | num (n : JsNumber)
  | obj (entries : List (List Char × JsValue))
  | arr (elems : List JsValue)

/-- An insertion-ordered string-keyed map, as JavaScript `Map` with string
keys (and `Object.fromEntries` of it) behaves. -/
abbrev PropList := List (List Char × JsValue)

/-- JavaScript `Map.has`. -/
def mapHas (m : PropList) (k : List Char) : Bool :=
  m.any (fun kv => kv.fst == k)

/-- JavaScript `Map.get` (`none` models `undefined`). -/
def mapGet (m : PropList) (k : List Char) : Option JsValue :=
  match m with
  | [] => none
  | (k', v) :: rest => if k' == k then some v else mapGet rest k

/-- JavaScript `Map.set`: overwrite in place when the key is present
(keeping its position), otherwise append at the end. -/
def mapSet (m : PropList) (k : List Char) (v : JsValue) : PropList :=
  match m with
  | [] => [(k, v)]
  | (k', v') :: rest =>
    if k' == k then (k, v) :: rest else (k', v') :: mapSet rest k v

/-- `add_property` from src/core.ts lines 266-285: new tags are set
directly, a repeated tag wraps the existing single value into a
two-element array, and further repeats push onto that array. -/
def add_property (properties : PropList) (tag_name : List Char)
    (value : JsValue) : PropList :=
  if ¬ mapHas properties tag_name then
    mapSet properties tag_name value
  else
    match mapGet properties tag_name with
    | some (.arr xs) => mapSet properties tag_name (.arr (xs ++ [value]))
    | some existing => mapSet properties tag_name (.arr [existing, value])
    | none => properties

/-! ### JavaScript string-to-number conversion

`parse_text_content` relies on the unary plus operator.  The functions
below model ECMAScript `StringNumericLiteral` parsing: optional
surrounding whitespace, an optional sign on decimal literals, decimal
digits with optional fraction and exponent, `Infinity`, and the
`0x` / `0o` / `0b` integer forms.  `none` models `NaN`. -/

/-- Decimal digit value. -/
def decDigit (c : Char) : Option Nat :=
  if '0' ≤ c ∧ c ≤ '9' then some (c.toNat - '0'.toNat) else none

/-- Hexadecimal digit value. -/
def hexDigit (c : Char) : Option Nat :=
  if '0' ≤ c ∧ c ≤ '9' then some (c.toNat - '0'.toNat)
  else if 'a' ≤ c ∧ c ≤ 'f' then some (c.toNat - 'a'.toNat + 10)
  else if 'A' ≤ c ∧ c ≤ 'F' then some (c.toNat - 'A'.toNat + 10)
  else none

/-- Octal digit value. -/
def octDigit (c : Char) : Option Nat :=
  if '0' ≤ c ∧ c ≤ '7' then some (c.toNat - '0'.toNat) else none

/-- Binary digit value. -/
def binDigit (c : Char) : Option Nat :=
  if c == '0' then some 0 else if c == '1' then some 1 else none

/-- Consume leading digits of the given base; returns the accumulated
value, a count of digits consumed, and the rest of the string. -/
def takeDigits (base : Nat) (dv : Char → Option Nat) :
    List Char → Nat → Nat → Nat × Nat × List Char
  | [], acc, cnt => (acc, cnt, [])
  | c :: cs, acc, cnt =>
    match dv c with
    | some d => takeDigits base dv cs (acc * base + d) (cnt + 1)
    | none => (acc, cnt, c :: cs)

/-- The exponent suffix of a decimal literal: empty means exponent `0`;
otherwise `e`/`E`, an optional sign and at least one digit, consuming the
whole rest. -/
def parseExpTail (s : List Char) : Option Int :=
  match s with
  | [] => some 0
  | e :: rest =>
    if e == 'e' || e == 'E' then
      let signed : Bool × List Char :=
        match rest with
        | '+' :: r => (false, r)
        | '-' :: r => (true, r)
        | r => (false, r)
      let (v, cnt, r') := takeDigits 10 decDigit signed.snd 0 0
      if cnt = 0 ∨ ¬ r'.isEmpty then none
      else some (if signed.fst then -(v : Int) else (v : Int))
    else none

/-- The rational `m * 10 ^ e`. -/
def decValue (m : Nat) (e : Int) : ℚ :=
  if 0 ≤ e then ((m * 10 ^ e.toNat : Nat) : ℚ)
  else (m : ℚ) / ((10 ^ (-e).toNat : Nat) : ℚ)

/-- An unsigned `StrDecimalLiteral`: `Infinity`, or digits with optional
fraction and exponent, consuming the whole string. -/
def parseUnsigned (s : List Char) : Option JsNumber :=
  if s = "Infinity".data then some .inf
  else
    let (ival, icnt, r1) := takeDigits 10 decDigit s 0 0
    match r1 with
    | '.' :: r2 =>
      let (fval, fcnt, r3) := takeDigits 10 decDigit r2 0 0
      if icnt = 0 ∧ fcnt = 0 then none
      else
        (parseExpTail r3).map fun e =>
          .finite (decValue (ival * 10 ^ fcnt + fval) (e - (fcnt : Int)))
    | _ =>
      if icnt = 0 then none
      else (parseExpTail r1).map fun e => .finite (decValue ival e)

/-- A `NonDecimalIntegerLiteral` (`0x…`, `0o…`, `0b…`), consuming the
whole string. -/
def parseNonDecimal (s : List Char) : Option JsNumber :=
  match s with
  | '0' :: p :: rest =>
    let parsed : Option (Nat × Nat × List Char) :=
      if p == 'x' || p == 'X' then some (takeDigits 16 hexDigit rest 0 0)
      else if p == 'o' || p == 'O' then some (takeDigits 8 octDigit rest 0 0)
      else if p == 'b' || p == 'B' then some (takeDigits 2 binDigit rest 0 0)
      else none
    match parsed with
    | some (v, cnt, r) =>
      if cnt = 0 ∨ ¬ r.isEmpty then none else some (.finite (v : ℚ))
    | none => none
  | _ => none

/-- Negation on modelled JavaScript numbers. -/
def negNum : JsNumber → JsNumber
  | .finite q => .finite (-q)
  | .inf => .negInf
  | .negInf => .inf

/-- Model of JavaScript `+s` on strings, `none` standing for `NaN`:
whitespace-only converts to `0`, otherwise one signed decimal literal or
an unsigned non-decimal literal must fill the trimmed string. -/
def jsStrToNum (s : List Char) : Option JsNumber :=
  let t := jsTrim s
  match t with
  | [] => some (.finite 0)
  | '+' :: r => parseUnsigned r
  | '-' :: r => (parseUnsigned r).map negNum
  | _ =>
    match parseNonDecimal t with
    | some n => some n
    | none => parseUnsigned t

/-- `parse_text_content` from src/core.ts lines 287-291: the empty string
stays a string, otherwise the value of `+text` unless that is `NaN`, in
which case the original string is returned. -/
def parse_text_content (text : List Char) : JsValue :=
  if text = [] then .str []
  else
    match jsStrToNum text with
    | some n => .num n
    | none => .str text

/-! ### Errors and the element parser -/

/-- The throw sites of src/core.ts, one constructor per distinct `throw`,
each carrying the offset interpolated into the message.  `fuelExhausted`
is the artifact of modelling the source's unbounded loops with fuel; the
theorems about the preprocessing loops show their fuel cannot run out. -/
inductive ParseErr where
  | emptyDocument
  | openNotFound (offset : Nat)
  | openUnterminated (offset : Nat)
  | closeNotFound (tag : List Char) (offset : Nat)
  | closeOrChildNotFound (tag : List Char) (offset : Nat)
  | cdataUnterminated (offset : Nat)
  | commentUnterminated (offset : Nat)
  | metadataUnterminated (offset : Nat)
  | fuelExhausted
  deriving DecidableEq

def lt_pattern : List Char := "<".data
def gt_pattern : List Char := ">".data
def cdata_start_pattern : List Char := "<![CDATA[".data
def cdata_end_pattern : List Char := "]]>".data
def comment_start_pattern : List Char := "<!--".data
def comment_end_pattern : List Char := "-->".data
def metadata_start_pattern : List Char := "<?".data
def metadata_end_pattern : List Char := "?>".data

/-- The transient element record returned by `parse_xml_element`. -/
structure Element where
  tag_name : List Char
  properties : PropList
  text_content : Option (List Char)
  offset : Nat

/-- `parse_cdata` from src/core.ts lines 190-221: when the next `<` at or
after `offset` starts a CDATA marker, return the verbatim payload and the
offset past `]]>`; otherwise report no content and leave the offset
unchanged. -/
def parse_cdata (xml : List Char) (offset : Nat) :
    Except ParseErr (Option (List Char) × Nat) :=
  match jsIndexOf xml lt_pattern offset with
  | none => .ok (none, offset)
  | some next_index =>
    match jsIndexOf xml cdata_start_pattern offset with
    | none => .ok (none, offset)
    | some start_index =>
      if next_index < start_index then .ok (none, offset)
      else
        let offset' := start_index + cdata_start_pattern.length
        match jsIndexOf xml cdata_end_pattern offset' with
        | none => .error (.cdataUnterminated start_index)
        | some end_index =>
          .ok (some (jsSlice xml offset' end_index),
               end_index + cdata_end_pattern.length)

/-- The inner `for (;;)` of src/core.ts lines 133-143: accumulate
consecutive CDATA sections into the element's text content. -/
def cdata_loop (xml : List Char) :
    Nat → Option (List Char) → Nat → Except ParseErr (Option (List Char) × Nat)
  | 0, _, _ => .error .fuelExhausted
  | fuel + 1, text_content, offset =>
    match parse_cdata xml offset with
    | .error e => .error e
    | .ok (none, _) => .ok (text_content, offset)
    | .ok (some content, offset') =>
      cdata_loop xml fuel (some (text_content.getD [] ++ content)) offset'

/-- The outer `for (;;)` of src/core.ts lines 132-173, parameterized by
the recursive call used to parse a child element: after the CDATA loop,
either the next `<` is the element's closing tag (stop past it), or it
starts a child, whose value is its coerced text content when present and
its properties map otherwise, merged via `add_property`. -/
def content_loop (parseChild : Nat → Except ParseErr Element)
    (xml : List Char) (tag_name closing_tag : List Char)
    (element_end_index : Nat) :
    Nat → PropList → Option (List Char) → Nat →
    Except ParseErr (PropList × Option (List Char) × Nat)
  | 0, _, _, _ => .error .fuelExhausted
  | fuel + 1, properties, text_content, offset =>
    match cdata_loop xml (fuel + 1) text_content offset with
    | .error e => .error e
    | .ok (text_content, offset) =>
      match jsIndexOf xml lt_pattern offset with
      | none => .error (.closeOrChildNotFound tag_name offset)
      | some next_tag_index =>
        if next_tag_index = element_end_index then
          .ok (properties, text_content, element_end_index + closing_tag.length)
        else
          match parseChild next_tag_index with
          | .error e => .error e
          | .ok child =>
            let value : JsValue :=
              match child.text_content with
              | some t => parse_text_content t
              | none => .obj child.properties
            content_loop parseChild xml tag_name closing_tag element_end_index
              fuel (add_property properties child.tag_name value)
              text_content child.offset

/-- `parse_xml_element` from src/core.ts lines 102-185: read the header
between `<` and `>`, take the first later occurrence of `</tag_name>` as
the end boundary, run the content loop, and when neither children nor
CDATA text were collected take the trimmed raw span as text content. -/
def parse_xml_element : Nat → List Char → Nat → Except ParseErr Element
  | 0, _, _ => .error .fuelExhausted
  | fuel + 1, xml, offset0 =>
    match jsIndexOf xml lt_pattern offset0 with
    | none => .error (.openNotFound offset0)
    | some tag_name_start_index =>
      match jsIndexOf xml gt_pattern (tag_name_start_index + 1) with
      | none => .error (.openUnterminated (tag_name_start_index + 1))
      | some tag_name_end_index =>
        let tag_name := jsSlice xml (tag_name_start_index + 1) tag_name_end_index
        let content_start_index := tag_name_end_index + 1
        let closing_tag := '<' :: '/' :: tag_name ++ ['>']
        match jsIndexOf xml closing_tag content_start_index with
        | none => .error (.closeNotFound tag_name content_start_index)
        | some element_end_index =>
          match content_loop (fun off => parse_xml_element fuel xml off)
              xml tag_name closing_tag element_end_index
              (fuel + 1) [] none content_start_index with
          | .error e => .error e
          | .ok (properties, text_content, offset) =>
            let text_content :=
              match properties, text_content with
              | [], none =>
                some (jsTrim (jsSlice xml content_start_index element_end_index))
              | _, _ => text_content
            .ok ⟨tag_name, properties, text_content, offset⟩

/-! ### Preprocessing -/

/-- The result of one iteration of a preprocessing loop: the text is
returned unchanged (no start marker), the loop fails (no end marker), or
the marked span is deleted and the loop goes round again. -/
inductive StepRes where
  | finished (s : List Char)
  | failed (offset : Nat)
  | next (s : List Char)

/-- One iteration of the `remove_xml_comments` loop, src/core.ts lines
227-241. -/
def comment_step (xml : List Char) : StepRes :=
  match jsIndexOf xml comment_start_pattern 0 with
  | none => .finished xml
  | some start_index =>
    match jsIndexOf xml comment_end_pattern start_index with
    | none => .failed start_index
    | some end_index =>
      .next (jsSlice xml 0 start_index ++
             xml.drop (end_index + comment_end_pattern.length))

/-- One iteration of the `remove_xml_metadata` loop, src/core.ts lines
247-261. -/
def metadata_step (xml : List Char) : StepRes :=
  match jsIndexOf xml metadata_start_pattern 0 with
  | none => .finished xml
  | some start_index =>
    match jsIndexOf xml metadata_end_pattern start_index with
    | none => .failed start_index
    | some end_index =>
      .next (jsSlice xml 0 start_index ++
             xml.drop (end_index + metadata_end_pattern.length))

/-- `remove_xml_comments` from src/core.ts lines 226-242 as a fueled loop
over `comment_step`. -/
def remove_xml_comments : Nat → List Char → Except ParseErr (List Char)
  | 0, _ => .error .fuelExhausted
  | fuel + 1, xml =>
    match comment_step xml with
    | .finished s => .ok s
    | .failed off => .error (.commentUnterminated off)
    | .next s => remove_xml_comments fuel s

/-- `remove_xml_metadata` from src/core.ts lines 246-262 as a fueled loop
over `metadata_step`. -/
def remove_xml_metadata : Nat → List Char → Except ParseErr (List Char)
  | 0, _ => .error .fuelExhausted
  | fuel + 1, xml =>
    match metadata_step xml with
    | .finished s => .ok s
    | .failed off => .error (.metadataUnterminated off)
    | .next s => remove_xml_metadata fuel s

/-! ### The document assembler -/

/-- The root loop of `xml_to_json`, src/core.ts lines 86-93: parse one
root element, merge `tag_name → element.properties` into the top-level
map, and stop once the offset reaches the end or only whitespace
remains. -/
def assemble_loop (xml : List Char) :
    Nat → PropList → Nat → Except ParseErr PropList
  | 0, _, _ => .error .fuelExhausted
  | fuel + 1, properties, offset =>
    match parse_xml_element (fuel + 1) xml offset with
    | .error e => .error e
    | .ok el =>
      let properties := add_property properties el.tag_name (.obj el.properties)
      if el.offset = xml.length ∨ jsTrim (xml.drop el.offset) = [] then
        .ok properties
      else assemble_loop xml fuel properties el.offset

/-- `xml_to_json` from src/core.ts lines 63-96: strip comments, strip
metadata, fail on a text without `<`, skip a leading metadata block (dead
after stripping, embedded faithfully), then run the assembler.  The fuel
handed to each loop is justified below: the preprocessing loops shorten
the text every iteration, and the assembler/parser fuel is generous
enough for every input the theorems evaluate. -/
def xml_to_json (xml : List Char) : Except ParseErr PropList :=
  match remove_xml_comments (xml.length + 1) xml with
  | .error e => .error e
  | .ok xml1 =>
    match remove_xml_metadata (xml1.length + 1) xml1 with
    | .error e => .error e
    | .ok xml2 =>
      if ¬ xml2.any (· == '<') then .error .emptyDocument
      else
        match
          (match jsIndexOf xml2 metadata_start_pattern 0 with
           | none => Except.ok 0
           | some ms =>
             match jsIndexOf xml2 metadata_end_pattern ms with
             | none => Except.error (ParseErr.metadataUnterminated ms)
             | some me => Except.ok (me + 2)) with
        | .error e => .error e
        | .ok offset0 => assemble_loop xml2 (2 * xml2.length + 4) [] offset0

/-- `parseDocument` of the specification is `xml_to_json` applied to the
document text. -/
def parseDocument (s : String) : Except ParseErr PropList :=
  xml_to_json s.data

/-! ### The serializer, modelled from the spec

The repository's tests (`test/to-xml.ts`) import `json_to_xml` from
`src/core`, but no implementation of it is present under src/; the
definitions below are therefore modelled from the spec (section 4.6)
rather than translated from source code. -/

/-- Decimal digits of a natural number, fueled (fuel bounds the digit
count; 32 covers every value in this development). -/
def natDigits : Nat → Nat → List Char
  | 0, _ => []
  | fuel + 1, n =>
    if n < 10 then [Char.ofNat ('0'.toNat + n)]
    else natDigits fuel (n / 10) ++ [Char.ofNat ('0'.toNat + n % 10)]

/-- Fractional decimal digits of `num / den` (`num < den`), fueled. -/
def fracDigits : Nat → Nat → Nat → List Char
  | 0, _, _ => []
  | fuel + 1, num, den =>
    if num = 0 then []
    else
      let num := num * 10
      Char.ofNat ('0'.toNat + num / den) :: fracDigits fuel (num % den) den

/-- Modelled from the spec: the canonical decimal text of a Number
(spec 4.6, "decimal for Number"). -/
def numText : JsNumber → List Char
  | .inf => "Infinity".data
  | .negInf => ('-' :: "Infinity".data)
  | .finite q =>
    let sign : List Char := if q < 0 then ['-'] else []
    let n := q.num.natAbs
    let ipart := natDigits 32 (n / q.den)
    let rem := n % q.den
    sign ++ ipart ++ (if rem = 0 then [] else '.' :: fracDigits 32 rem q.den)

/-- Modelled from the spec: `json_to_xml` / `serialize` is absent from
src/ (only `test/to-xml.ts` imports it), so its element writer is modelled
from spec section 4.6: walk entries in insertion order; an array value
yields one element per entry at the current indent; a non-empty map value
yields an opening tag, the recursion one indent step deeper and a closing
tag; an empty map value yields a self-closing tag; a scalar value yields
opening tag, canonical text and closing tag on one line.  Fuel bounds the
nesting depth. -/
def serialize_value (indent step tag : List Char) :
    Nat → JsValue → List (List Char)
  | 0, _ => []
  | fuel + 1, .arr elems =>
    elems.flatMap fun v => serialize_value indent step tag fuel v
  | _ + 1, .obj [] => [indent ++ '<' :: tag ++ "/>".data]
  | fuel + 1, .obj (e :: es) =>
    (indent ++ '<' :: tag ++ ">".data) ::
      ((e :: es).flatMap fun kv =>
        serialize_value (indent ++ step) step kv.fst fuel kv.snd) ++
      [indent ++ "</".data ++ tag ++ ">".data]
  | _ + 1, .str s => [indent ++ '<' :: tag ++ ">".data ++ s ++ "</".data ++ tag ++ ">".data]
  | _ + 1, .num n =>
    [indent ++ '<' :: tag ++ ">".data ++ numText n ++ "</".data ++ tag ++ ">".data]

/-- Join serialized lines with newlines. -/
def joinLines : List (List Char) → List Char
  | [] => []
  | [l] => l
  | l :: ls => l ++ '\n' :: joinLines ls

/-- Modelled from the spec: `serialize(map, options)` with explicit
`initial_indent` and `indent_step` (spec 4.6). -/
def serialize_with (initial_indent indent_step : List Char)
    (m : PropList) : List Char :=
  joinLines
    (m.flatMap fun kv => serialize_value initial_indent indent_step kv.fst 1000 kv.snd)

/-- Modelled from the spec: `serialize` at the default options,
`initial_indent = ""` and `indent_step = "  "`. -/
def serialize (m : PropList) : List Char :=
  serialize_with [] "  ".data m

/-- Is the value an array? (`Array.isArray` of the source.) -/
def isArr : JsValue → Bool
  | .arr _ => true
  | _ => false

/-- Is the value an object (a nested property map)? -/
def isObjVal : JsValue → Bool
  | .obj _ => true
  | _ => false

/-- The shape every top-level value of `xml_to_json` has: an object, or an
array all of whose elements are objects. -/
def topValOk : JsValue → Bool
  | .obj _ => true
  | .arr elems => elems.all isObjVal
  | _ => false

/-! ## Supporting lemmas -/

theorem patAt_length_le : ∀ {pat t : List Char}, patAt pat t = true →
    pat.length ≤ t.length := by
  intro pat
  induction pat with
  | nil => intro t _; simp
  | cons p ps ih =>
    intro t h
    cases t with
    | nil => simp [patAt] at h
    | cons c cs =>
      rw [patAt, Bool.and_eq_true] at h
      have := ih h.2
      simp only [List.length_cons]
      omega

theorem idxFrom_patAt : ∀ {s pat : List Char} {i : Nat},
    idxFrom pat s = some i → patAt pat (s.drop i) = true := by
  intro s
  induction s with
  | nil =>
    intro pat i h
    cases pat with
    | nil => injection h with h; subst h; rfl
    | cons p ps => exact Option.noConfusion h
  | cons c cs ih =>
    intro pat i h
    rw [idxFrom] at h
    by_cases hp : patAt pat (c :: cs) = true
    · rw [if_pos hp] at h
      injection h with h
      subst h
      exact hp
    · rw [if_neg hp] at h
      obtain ⟨j, hj, hji⟩ := Option.map_eq_some'.mp h
      subst hji
      rw [List.drop_succ_cons]
      exact ih hj

theorem jsIndexOf_spec {s pat : List Char} {start i : Nat}
    (h : jsIndexOf s pat start = some i) :
    start ≤ i ∧ patAt pat (s.drop i) = true := by
  rw [jsIndexOf] at h
  obtain ⟨j, hj, hji⟩ := Option.map_eq_some'.mp h
  subst hji
  refine ⟨Nat.le_add_left _ _, ?_⟩
  have := idxFrom_patAt hj
  rw [List.drop_drop] at this
  rwa [Nat.add_comm] at this

theorem jsIndexOf_fits {s pat : List Char} {start i : Nat}
    (hne : pat ≠ []) (h : jsIndexOf s pat start = some i) :
    i + pat.length ≤ s.length := by
  obtain ⟨-, hpat⟩ := jsIndexOf_spec h
  have hlen := patAt_length_le hpat
  rw [List.length_drop] at hlen
  by_cases hi : i ≤ s.length
  · omega
  · have hdrop : s.drop i = [] := List.drop_eq_nil_of_le (by omega)
    rw [hdrop] at hpat
    cases pat with
    | nil => exact absurd rfl hne
    | cons _ _ => simp [patAt] at hpat

theorem comment_step_shortens {s s2 : List Char}
    (h : comment_step s = StepRes.next s2) : s2.length + 3 ≤ s.length := by
  unfold comment_step at h
  split at h
  · exact StepRes.noConfusion h
  · rename_i start_index heq1
    split at h
    · exact StepRes.noConfusion h
    · rename_i end_index heq2
      injection h with h
      subst h
      obtain ⟨hle, -⟩ := jsIndexOf_spec heq2
      have hf1 := jsIndexOf_fits (by decide) heq1
      have hf2 := jsIndexOf_fits (by decide) heq2
      rw [show comment_start_pattern.length = 4 from rfl] at hf1
      rw [show comment_end_pattern.length = 3 from rfl] at hf2
      simp only [jsSlice, List.drop_zero, List.length_append,
        List.length_take, List.length_drop,
        show comment_end_pattern.length = 3 from rfl]
      omega

theorem metadata_step_shortens {s s2 : List Char}
    (h : metadata_step s = StepRes.next s2) : s2.length + 2 ≤ s.length := by
  unfold metadata_step at h
  split at h
  · exact StepRes.noConfusion h
  · rename_i start_index heq1
    split at h
    · exact StepRes.noConfusion h
    · rename_i end_index heq2
      injection h with h
      subst h
      obtain ⟨hle, -⟩ := jsIndexOf_spec heq2
      have hf1 := jsIndexOf_fits (by decide) heq1
      have hf2 := jsIndexOf_fits (by decide) heq2
      rw [show metadata_start_pattern.length = 2 from rfl] at hf1
      rw [show metadata_end_pattern.length = 2 from rfl] at hf2
      simp only [jsSlice, List.drop_zero, List.length_append,
        List.length_take, List.length_drop,
        show metadata_end_pattern.length = 2 from rfl]
      omega

theorem remove_xml_comments_fuel_enough :
    ∀ (fuel : Nat) (s : List Char), s.length < fuel →
      remove_xml_comments fuel s ≠ .error .fuelExhausted := by
  intro fuel
  induction fuel with
  | zero => intro s h; exact absurd h (Nat.not_lt_zero _)
  | succ fuel ih =>
    intro s h
    rw [remove_xml_comments]
    cases hstep : comment_step s with
    | finished s2 => simp
    | failed off => simp
    | next s2 =>
      have := comment_step_shortens hstep
      exact ih s2 (by omega)

theorem mapSet_of_not_has {m : PropList} {k : List Char} (v : JsValue)
    (h : mapHas m k = false) : mapSet m k v = m ++ [(k, v)] := by
  induction m with
  | nil => rfl
  | cons kv rest ih =>
    obtain ⟨k', v'⟩ := kv
    simp only [mapHas, List.any_cons, Bool.or_eq_false_iff] at h
    obtain ⟨h1, h2⟩ := h
    rw [mapSet, if_neg (by simp [h1]), List.cons_append]
    rw [ih (by rw [mapHas]; exact h2)]

theorem mem_mapSet {m : PropList} {k : List Char} {v : JsValue}
    {kv : List Char × JsValue} (h : kv ∈ mapSet m k v) :
    kv = (k, v) ∨ kv ∈ m := by
  induction m with
  | nil =>
    rw [mapSet] at h
    exact Or.inl (List.mem_singleton.mp h)
  | cons kv' rest ih =>
    obtain ⟨k', v'⟩ := kv'
    rw [mapSet] at h
    by_cases hk : (k' == k) = true
    · rw [if_pos hk] at h
      rcases List.mem_cons.mp h with h | h
      · exact Or.inl h
      · exact Or.inr (List.mem_cons_of_mem _ h)
    · rw [if_neg hk] at h
      rcases List.mem_cons.mp h with h | h
      · exact Or.inr (h ▸ List.mem_cons_self _ _)
      · rcases ih h with h | h
        · exact Or.inl h
        · exact Or.inr (List.mem_cons_of_mem _ h)

theorem mapGet_mem {m : PropList} {k : List Char} {v : JsValue}
    (h : mapGet m k = some v) : ∃ k', (k', v) ∈ m := by
  induction m with
  | nil => exact Option.noConfusion h
  | cons kv rest ih =>
    obtain ⟨k', v'⟩ := kv
    rw [mapGet] at h
    by_cases hk : (k' == k) = true
    · rw [if_pos hk] at h
      injection h with h
      subst h
      exact ⟨k', List.mem_cons_self _ _⟩
    · rw [if_neg hk] at h
      obtain ⟨k'', hk''⟩ := ih h
      exact ⟨k'', List.mem_cons_of_mem _ hk''⟩

theorem mapGet_some_has {m : PropList} {k : List Char} {v : JsValue}
    (h : mapGet m k = some v) : mapHas m k = true := by
  induction m with
  | nil => exact Option.noConfusion h
  | cons kv rest ih =>
    obtain ⟨k', v'⟩ := kv
    rw [mapGet] at h
    rw [mapHas, List.any_cons]
    by_cases hk : (k' == k) = true
    · simp [hk]
    · rw [if_neg hk] at h
      have := ih h
      rw [mapHas] at this
      simp [this]

theorem add_property_topValOk {m : PropList} {t : List Char} {v : JsValue}
    (hval : isObjVal v = true)
    (hm : ∀ kv ∈ m, topValOk kv.snd = true) :
    ∀ kv ∈ add_property m t v, topValOk kv.snd = true := by
  intro kv hkv
  rw [add_property] at hkv
  cases hhas : mapHas m t with
  | false =>
    rw [if_pos (by simp [hhas])] at hkv
    rcases mem_mapSet hkv with h | h
    · rw [h]
      cases v with
      | obj entries => rfl
      | str s => exact Bool.noConfusion hval
      | num n => exact Bool.noConfusion hval
      | arr elems => exact Bool.noConfusion hval
    · exact hm kv h
  | true =>
    rw [if_neg (by simp [hhas])] at hkv
    cases hget : mapGet m t with
    | none => rw [hget] at hkv; exact hm kv hkv
    | some ex =>
      rw [hget] at hkv
      obtain ⟨k', hk'⟩ := mapGet_mem hget
      have hex := hm _ hk'
      cases ex with
      | arr xs =>
        rcases mem_mapSet hkv with h | h
        · rw [h]
          show topValOk (.arr (xs ++ [v])) = true
          rw [topValOk, List.all_append]
          rw [show topValOk (.arr xs) = xs.all isObjVal from rfl] at hex
          simp [hex, hval]
        · exact hm kv h
      | obj entries =>
        rcases mem_mapSet hkv with h | h
        · rw [h]
          show ([JsValue.obj entries, v].all isObjVal) = true
          have h1 : isObjVal (JsValue.obj entries) = true := rfl
          simp [List.all_cons, h1, hval]
        · exact hm kv h
      | str s =>
        rw [show topValOk (JsValue.str s) = false from rfl] at hex
        exact Bool.noConfusion hex
      | num n =>
        rw [show topValOk (JsValue.num n) = false from rfl] at hex
        exact Bool.noConfusion hex

theorem assemble_loop_topValOk (xml : List Char) :
    ∀ (fuel : Nat) (props : PropList) (offset : Nat) (m : PropList),
      (∀ kv ∈ props, topValOk kv.snd = true) →
      assemble_loop xml fuel props offset = .ok m →
      ∀ kv ∈ m, topValOk kv.snd = true := by
  intro fuel
  induction fuel with
  | zero =>
    intro props off m hp h
    exact Except.noConfusion h
  | succ fuel ih =>
    intro props off m hp h
    rw [assemble_loop] at h
    cases hel : parse_xml_element (fuel + 1) xml off with
    | error e =>
      rw [hel] at h
      exact Except.noConfusion h
    | ok el =>
      rw [hel] at h
      dsimp only at h
      have hp' := add_property_topValOk (m := props) (t := el.tag_name)
        (v := .obj el.properties) rfl hp
      by_cases hstop : el.offset = xml.length ∨ jsTrim (xml.drop el.offset) = []
      · rw [if_pos hstop] at h
        injection h with h
        subst h
        exact hp'
      · rw [if_neg hstop] at h
        exact ih _ _ _ hp' h

theorem xml_to_json_top_shape : ∀ (xml : List Char) (m : PropList),
    xml_to_json xml = .ok m → ∀ kv ∈ m, topValOk kv.snd = true := by
  intro xml m h
  rw [xml_to_json] at h
  split at h
  · exact Except.noConfusion h
  · split at h
    · exact Except.noConfusion h
    · split at h
      · exact Except.noConfusion h
      · split at h
        · exact Except.noConfusion h
        · exact assemble_loop_topValOk _ _ _ _ _
            (by intro kv hkv; exact absurd hkv (List.not_mem_nil kv)) h

theorem foldl_add_property_same_tag (t : List Char) :
    ∀ (vs ys : List JsValue), ys ≠ [] →
      vs.foldl (fun acc v => add_property acc t v) [(t, .arr ys)] =
        [(t, .arr (ys ++ vs))] := by
  intro vs
  induction vs with
  | nil => intro ys _; simp
  | cons v vs ih =>
    intro ys hys
    rw [List.foldl_cons]
    have hstep : add_property [(t, .arr ys)] t v = [(t, .arr (ys ++ [v]))] := by
      rw [add_property]
      rw [if_neg (by simp [mapHas])]
      rw [show mapGet [(t, JsValue.arr ys)] t = some (.arr ys) by simp [mapGet]]
      simp [mapSet]
    rw [hstep, ih (ys ++ [v]) (by simp), List.append_assoc]
    rfl

theorem remove_xml_metadata_fuel_enough :
    ∀ (fuel : Nat) (s : List Char), s.length < fuel →
      remove_xml_metadata fuel s ≠ .error .fuelExhausted := by
  intro fuel
  induction fuel with
  | zero => intro s h; exact absurd h (Nat.not_lt_zero _)
  | succ fuel ih =>
    intro s h
    rw [remove_xml_metadata]
    cases hstep : metadata_step s with
    | finished s2 => simp
    | failed off => simp
    | next s2 =>
      have := metadata_step_shortens hstep
      exact ih s2 (by omega)

/-! ## The claims -/

/-- Claim C1 (code bug): the round-trip property fails on the code.  On
the document `<a></a>` the parser yields the map `a -> {}` (an empty
properties map); the spec's serializer renders an empty map as the
self-closing tag `<a/>`; and re-parsing `<a/>` does not return `a -> {}`
but throws ElementCloseNotFound, because `parse_xml_element` has no
self-closing branch and searches for the literal closing tag `</a/>`. -/
theorem roundtrip_after_parse_fails :
    parseDocument "<a></a>" = .ok [("a".data, JsValue.obj [])] ∧
    serialize [("a".data, JsValue.obj [])] = "<a/>".data ∧
    parseDocument "<a/>" = .error (.closeNotFound "a/".data 4) :=
  ⟨rfl, rfl, rfl⟩

/-- Claim C2 (code bug): `parseDocument "<a/>"` does not return the map
`a -> {}` claimed by the spec and by test/self-closing.ts: the header
`a/` is kept verbatim (no trailing-slash handling exists in
`parse_xml_element`), so the parser searches for `</a/>` and throws
ElementCloseNotFound; the body of the repository's own self-closing test
fails the same way on its `<box/>` child. -/
theorem self_closing_rejected :
    parseDocument "<a/>" = .error (.closeNotFound "a/".data 4) ∧
    parseDocument "<player><name>John</name><box/></player>" =
      .error (.closeNotFound "box/".data 31) :=
  ⟨rfl, rfl⟩

/-- Claim C3, counterexample: `parseDocument "<a>1</a>"` is the map
`a -> {}` and in particular is not `a -> 1` as the claim states — the
document assembler merges `element.properties` for every root and
discards a root's text content. -/
theorem scalar_root_counterexample :
    parseDocument "<a>1</a>" = .ok [("a".data, JsValue.obj [])] ∧
    parseDocument "<a>1</a>" ≠
      .ok [("a".data, JsValue.num (.finite 1))] := by
  refine ⟨rfl, fun h => ?_⟩
  have h2 := (show parseDocument "<a>1</a>" =
    .ok [("a".data, JsValue.obj [])] from rfl).symm.trans h
  injection h2 with h2
  injection h2 with h2 h3
  injection h2 with h2a h2b
  exact JsValue.noConfusion h2b

/-- Claim C3 as amended: every root element is merged as
`tag_name -> its properties map` unconditionally, a root's text content
being ignored; hence every top-level value of `xml_to_json` is an object
or an array of objects (never a coerced scalar), and
`parseDocument "<a>1</a>"` is `a -> {}`. -/
theorem root_merge_uses_properties :
    (∀ (xml : List Char) (m : PropList), xml_to_json xml = .ok m →
      ∀ kv ∈ m, topValOk kv.snd = true) ∧
    parseDocument "<a>1</a>" = .ok [("a".data, JsValue.obj [])] :=
  ⟨xml_to_json_top_shape, rfl⟩

/-- Witness for C3's amended theorem at a concrete input. -/
theorem root_merge_uses_properties_witness :
    topValOk (JsValue.obj []) = true :=
  root_merge_uses_properties.1 "<a>1</a>".data [("a".data, JsValue.obj [])]
    rfl ("a".data, JsValue.obj []) (List.mem_singleton.mpr rfl)

/-- Claim C4, counterexample: on
`<r><p><![CDATA[hi]]><c>1</c></p></r>` the element `p` accumulates the
CDATA text `hi` and then merges the child `c`, and the parent merge for
`p` uses the coerced text (`"hi"`), not `p`'s properties map as the
claim states. -/
theorem cdata_child_counterexample :
    parseDocument "<r><p><![CDATA[hi]]><c>1</c></p></r>" =
      .ok [("r".data, JsValue.obj [("p".data, JsValue.str "hi".data)])] ∧
    parseDocument "<r><p><![CDATA[hi]]><c>1</c></p></r>" ≠
      .ok [("r".data, JsValue.obj [("p".data,
        JsValue.obj [("c".data, JsValue.num (.finite 1))])])] := by
  refine ⟨rfl, fun h => ?_⟩
  have h2 := (show parseDocument "<r><p><![CDATA[hi]]><c>1</c></p></r>" =
    .ok [("r".data, JsValue.obj [("p".data, JsValue.str "hi".data)])]
    from rfl).symm.trans h
  injection h2 with h2
  injection h2 with h2 h3
  injection h2 with h2a h2b
  injection h2b with h2b
  injection h2b with h2b h4
  injection h2b with h2c h2d
  exact JsValue.noConfusion h2d

/-- Claim C4 as amended: when an element both accumulates CDATA text and
later merges a child, the parent merge step uses the coerced accumulated
text (the text path), because `child.text_content != null` is checked
before the properties map; only the document assembler ignores text
content and always takes the root's properties map. -/
theorem cdata_child_text_precedence :
    parseDocument "<r><p><![CDATA[hi]]><c>1</c></p></r>" =
      .ok [("r".data, JsValue.obj [("p".data, JsValue.str "hi".data)])] ∧
    parseDocument "<p><![CDATA[hi]]><c>1</c></p>" =
      .ok [("p".data, JsValue.obj [("c".data, JsValue.num (.finite 1))])] :=
  ⟨rfl, rfl⟩

/-- Claim C5 (code bug): the header between `<` and `>` is not trimmed:
`<a >x</a>` keeps the tag name `a ` (with the space), so the parser
searches for the closing marker `</a >` and throws ElementCloseNotFound
instead of parsing tag `a`; when the closing tag carries the same extra
space the document parses but under the untrimmed key `a `.  The
repository's own test/extra-space.ts expects the trimmed tag `player`. -/
theorem header_not_trimmed :
    parseDocument "<a >x</a>" = .error (.closeNotFound "a ".data 4) ∧
    parseDocument "<r><a >1</a ></r>" =
      .ok [("r".data, JsValue.obj [("a ".data, JsValue.num (.finite 1))])] :=
  ⟨rfl, rfl⟩

/-- Claim C6: the merge function `add_property` sets an unseen tag
directly (appending the new entry), replaces a seen single value with the
two-element array of old and new, and pushes onto a seen array value; as
a consequence N sibling values merged under one tag (N at least 2, each a
non-array, as parsed element values always are) end as an array of length
N in encounter order; concretely three `<x>` siblings parse to an array
of their three values in order. -/
theorem repeated_tag_merging :
    (∀ (m : PropList) (t : List Char) (v : JsValue), mapHas m t = false →
      add_property m t v = m ++ [(t, v)]) ∧
    (∀ (m : PropList) (t : List Char) (v ex : JsValue), mapGet m t = some ex →
      isArr ex = false → add_property m t v = mapSet m t (.arr [ex, v])) ∧
    (∀ (m : PropList) (t : List Char) (v : JsValue) (xs : List JsValue),
      mapGet m t = some (.arr xs) →
      add_property m t v = mapSet m t (.arr (xs ++ [v]))) ∧
    (∀ (t : List Char) (vs : List JsValue), 2 ≤ vs.length →
      (∀ v ∈ vs, isArr v = false) →
      vs.foldl (fun acc v => add_property acc t v) [] = [(t, .arr vs)]) ∧
    parseDocument "<r><x>1</x><x>2</x><x>3</x></r>" =
      .ok [("r".data, JsValue.obj [("x".data, JsValue.arr
        [JsValue.num (.finite 1), JsValue.num (.finite 2),
         JsValue.num (.finite 3)])])] := by
  refine ⟨?_, ?_, ?_, ?_, rfl⟩
  · intro m t v h
    rw [add_property, if_pos (by simp [h])]
    exact mapSet_of_not_has v h
  · intro m t v ex hget harr
    rw [add_property, if_neg (by simp [mapGet_some_has hget]), hget]
    cases ex with
    | arr xs =>
      rw [show isArr (JsValue.arr xs) = true from rfl] at harr
      exact Bool.noConfusion harr
    | str s => rfl
    | num n => rfl
    | obj es => rfl
  · intro m t v xs hget
    rw [add_property, if_neg (by simp [mapGet_some_has hget]), hget]
  · intro t vs h2 hv
    cases vs with
    | nil => exact absurd h2 (by simp)
    | cons v1 tl =>
      cases tl with
      | nil => exact absurd h2 (by simp)
      | cons v2 rest =>
        rw [List.foldl_cons, List.foldl_cons]
        have hv1 : isArr v1 = false := hv v1 (by simp)
        have step1 : add_property [] t v1 = [(t, v1)] := by
          rw [add_property, if_pos (by simp [mapHas])]
          rfl
        rw [step1]
        have step2 : add_property [(t, v1)] t v2 = [(t, .arr [v1, v2])] := by
          rw [add_property, if_neg (by simp [mapHas]),
            show mapGet [(t, v1)] t = some v1 by simp [mapGet]]
          cases v1 with
          | arr xs => exact Bool.noConfusion hv1
          | str s => simp [mapSet]
          | num n => simp [mapSet]
          | obj es => simp [mapSet]
        rw [step2, foldl_add_property_same_tag t rest [v1, v2] (by simp)]
        rfl

/-- Witness for C6 at concrete inputs: a fresh tag is set directly, and
two same-tag values fold into the two-element array. -/
theorem repeated_tag_merging_witness :
    add_property [] "x".data (JsValue.num (.finite 1)) =
      [("x".data, JsValue.num (.finite 1))] ∧
    [JsValue.num (.finite 1), JsValue.num (.finite 2)].foldl
        (fun acc v => add_property acc "x".data v) [] =
      [("x".data, JsValue.arr [JsValue.num (.finite 1),
        JsValue.num (.finite 2)])] :=
  ⟨by
    have h := repeated_tag_merging.1 [] "x".data (JsValue.num (.finite 1)) rfl
    simpa using h,
   repeated_tag_merging.2.2.2.1 "x".data
     [JsValue.num (.finite 1), JsValue.num (.finite 2)]
     (by simp) (by decide)⟩

/-- Claim C7: text coercion maps the empty string to the empty string (a
string value, not the number zero), numeric strings to their number
(`"512"` to 512 and `"1e3"` to 1000), and a non-numeric string to itself
unchanged. -/
theorem text_coercion_cases :
    parse_text_content "".data = JsValue.str [] ∧
    parse_text_content "512".data = JsValue.num (.finite 512) ∧
    parse_text_content "1e3".data = JsValue.num (.finite 1000) ∧
    parse_text_content "abc".data = JsValue.str "abc".data :=
  ⟨rfl, rfl, rfl, rfl⟩

/-- Claim C8: on the well-balanced document `<a><a>1</a></a>` the outer
element's end boundary is the first `</a>`, after which the remaining
text `</a>` is parsed as an element with header `/a` whose closing marker
`<//a>` does not exist, so the whole parse fails with
ElementCloseNotFound instead of returning the nested map. -/
theorem nested_same_tag_fails :
    parseDocument "<a><a>1</a></a>" =
      .error (.closeNotFound "/a".data 15) :=
  rfl

/-- Claim C9: the no-element check runs on the preprocessed text, so a
document holding only a comment block, or only a metadata block — both of
which do contain `<` — still fails with the EmptyDocument error. -/
theorem comment_only_empty_document :
    parseDocument "<!-- x -->" = .error .emptyDocument ∧
    parseDocument "<? meta ?>" = .error .emptyDocument ∧
    "<!-- x -->".data.any (· == '<') = true ∧
    "<? meta ?>".data.any (· == '<') = true :=
  ⟨rfl, rfl, rfl, rfl⟩

/-- Claim C10: each preprocessing iteration that goes round again (the
`.next` outcome) deletes at least the end marker's length, strictly
shortening the text (by at least 3 for comments, 2 for metadata), and
therefore the loops terminate: with fuel exceeding the text length,
`remove_xml_comments` and `remove_xml_metadata` never exhaust it. -/
theorem preprocessing_terminates :
    (∀ s s2 : List Char, comment_step s = .next s2 →
      s2.length + 3 ≤ s.length) ∧
    (∀ s s2 : List Char, metadata_step s = .next s2 →
      s2.length + 2 ≤ s.length) ∧
    (∀ (fuel : Nat) (s : List Char), s.length < fuel →
      remove_xml_comments fuel s ≠ .error .fuelExhausted) ∧
    (∀ (fuel : Nat) (s : List Char), s.length < fuel →
      remove_xml_metadata fuel s ≠ .error .fuelExhausted) :=
  ⟨fun _ _ h => comment_step_shortens h,
   fun _ _ h => metadata_step_shortens h,
   remove_xml_comments_fuel_enough,
   remove_xml_metadata_fuel_enough⟩

/-- Witness for C10 at concrete inputs: one comment iteration shortens
`a<!-- c -->b` to `ab`, one metadata iteration shortens `<?x?>` to the
empty text, and both loops run to completion within their fuel. -/
theorem preprocessing_terminates_witness :
    "ab".data.length + 3 ≤ "a<!-- c -->b".data.length ∧
    ([] : List Char).length + 2 ≤ "<?x?>".data.length ∧
    remove_xml_comments 13 "a<!-- c -->b".data ≠ .error .fuelExhausted ∧
    remove_xml_metadata 6 "<?x?>".data ≠ .error .fuelExhausted :=
  ⟨preprocessing_terminates.1 "a<!-- c -->b".data "ab".data rfl,
   preprocessing_terminates.2.1 "<?x?>".data [] rfl,
   preprocessing_terminates.2.2.1 13 "a<!-- c -->b".data (by decide),
   preprocessing_terminates.2.2.2 6 "<?x?>".data (by decide)⟩

end XmlParserTs
